import Mathlib

/-!
Verification of the NTFS cluster-space-manager specification against the
driver sources (fs/ntfs3).  Integer types are embedded as `Nat`/`Int` with
explicit `% 2 ^ 64` where the C code computes in `size_t`/`u64`.
Functions whose C bodies are present under the sources (ntfs_fs.h, debug.h,
xattr.c) are translated directly; the bodies of run.c and ubitmap.c are not
part of the excerpt, so those operations are modelled from the specification
(each such definition carries a `Modelled from the spec:` doc comment).
-/

namespace Ntfs

/-- Translation of the macro `IS_IN_RANGE(s, c, l, w)` from ntfs_fs.h
lines 9-14, read over exact natural-number arithmetic as the claim fixes:
`((c) > 0 && (w) > 0) && (((l) <= (s) && (s) < ((l)+(w))) ||
((s) <= (l) && ((s)+(c)) >= ((l)+(w))) || ((l) < ((s)+(c)) && ((s)+(c)) < ((l)+(w))))`. -/
def IS_IN_RANGE (s c l w : Nat) : Bool :=
  (decide (0 < c) && decide (0 < w)) &&
  ((decide (l ≤ s) && decide (s < l + w)) ||
   (decide (s ≤ l) && decide (l + w ≤ s + c)) ||
   (decide (l < s + c) && decide (s + c < l + w)))

/-- Translation of `QuadAlign(n)` from debug.h line 15:
`(((n) + 7u) & (~7u))`.  The argument is a `size_t` (addition wraps at
`2 ^ 64`), while `~7u` is a 32-bit `unsigned int`, so the bitwise-and mask is
the zero-extended `0xFFFFFFF8`. -/
def QuadAlign (n : Nat) : Nat :=
  ((n + 7) % 2 ^ 64) &&& 0xFFFFFFF8

/-- Translation of `bitmap_size(bits)` from ntfs_fs.h lines 811-815:
`return QuadAlign((bits + 7) >> 3);` in `size_t` arithmetic. -/
def bitmap_size (bits : Nat) : Nat :=
  QuadAlign (((bits % 2 ^ 64 + 7) % 2 ^ 64) >>> 3)

/-- Shallow embedding of `struct wnd_bitmap` (ntfs_fs.h lines 86-115)
restricted to the fields the claims are about: the total bit count, the
window bitmap itself (`true` = bit set = used, `false` = zero = free), the
maintained counters `total_zeroes` and per-window `free_bits`, and the zone
`[zone_bit, zone_end)`.  The window size (in the driver fixed by the page
size) is kept as the abstract field `wbits`; the rb-tree extent cache and
lock fields play no part in the claims and are omitted. -/
structure WndBitmap where
  nbits : Nat
  wbits : Nat
  bits : Nat → Bool
  total_zeroes : Nat
  free_bits : Nat → Nat
  zone_bit : Nat
  zone_end : Nat

/-- Translation of `wnd_zeroes(wnd)` from ntfs_fs.h lines 685-688:
`return wnd->total_zeroes;`. -/
def wnd_zeroes (w : WndBitmap) : Nat :=
  w.total_zeroes

/-- Translation of `wnd_zone_bit(wnd)` from ntfs_fs.h lines 770-773:
`return wnd->zone_bit;`. -/
def wnd_zone_bit (w : WndBitmap) : Nat :=
  w.zone_bit

/-- Translation of `wnd_zone_len(wnd)` from ntfs_fs.h lines 775-778:
`return wnd->zone_end - wnd->zone_bit;` — a `size_t` subtraction, which
wraps modulo `2 ^ 64`. -/
def wnd_zone_len (w : WndBitmap) : Nat :=
  (w.zone_end + 2 ^ 64 - w.zone_bit % 2 ^ 64) % 2 ^ 64

/-- `timespec64` restricted to the two fields the conversion uses. -/
structure Timespec64 where
  tv_sec : Int
  tv_nsec : Int
deriving DecidableEq

/-- Translation of `kernel2nt(ts)` from ntfs_fs.h lines 827-833:
`_100ns2seconds * (ts->tv_sec + SecondsToStartOf1970) + ts->tv_nsec / NTFS_TIME_GRAN`
with `_100ns2seconds = 10000000`, `SecondsToStartOf1970 = 0x2B6109100`,
`NTFS_TIME_GRAN = 100`; the signed 64-bit result is returned as a `u64`
(`cpu_to_le64`), embedded here as the value modulo `2 ^ 64`. -/
def kernel2nt (ts : Timespec64) : Nat :=
  ((10000000 * (ts.tv_sec + 11644473600) + ts.tv_nsec / 100) % (2 ^ 64 : Int)).toNat

/-- Translation of `nt2kernel(tm, ts)` from ntfs_fs.h lines 840-847:
`u64 t = tm - _100ns2seconds * SecondsToStartOf1970;`
`ts->tv_nsec = do_div(t, _100ns2seconds) * 100; ts->tv_sec = t;`
`do_div` is unsigned 64-bit division leaving the quotient in `t` and
returning the remainder; the quotient is then stored into the signed
`tv_sec` (two's-complement reinterpretation). -/
def nt2kernel (tm : Nat) : Timespec64 :=
  let t : Nat := (tm % 2 ^ 64 + 2 ^ 64 - 116444736000000000) % 2 ^ 64
  { tv_sec := if t / 10000000 < 2 ^ 63 then (t / 10000000 : Nat) else (t / 10000000 : Nat) - 2 ^ 64
    tv_nsec := (t % 10000000 : Nat) * 100 }

/-! EA (extended attribute) model, from xattr.c.  The packed EA block is a
sequence of records, each with a name and a value; `find_ea` (xattr.c
lines 45-68) locates the first record whose name matches.  The stored state
of an inode's extended attributes is embedded as that record list. -/

/-- Stored extended-attribute state of one inode: the EA records in the
order they sit in the packed `$EA` block. -/
structure EaState where
  eas : List (String × List Nat)
deriving DecidableEq

/-- `find_ea` (xattr.c lines 45-68) succeeds iff some record's name matches
(`ea->name_len == name_len && !memcmp(ea->name, name, name_len)`). -/
def find_ea (eas : List (String × List Nat)) (name : String) : Bool :=
  eas.any (fun p => p.1 = name)

def XATTR_CREATE : Nat := 1
def XATTR_REPLACE : Nat := 2
def EEXIST : Int := 17
def ENODATA : Int := 61
def ENAMETOOLONG : Int := 36

/-- State-level translation of `ntfs_set_ea` (xattr.c lines 274-472),
keeping the control flow that decides the returned error and the resulting
EA state: name longer than 255 fails with `-ENAMETOOLONG` (line 301); if the
attribute exists (`info && find_ea`, line 323) then `XATTR_CREATE` fails
with `-EEXIST` (lines 327-330), otherwise the record is removed
(lines 332-346) and, unless `XATTR_REPLACE` was given with an empty value
(lines 348-349), the new record is appended (lines 365-377); if it does not
exist, `XATTR_REPLACE` fails with `-ENODATA` (lines 351-354), otherwise the
new record is appended.  The error paths `goto out` before any of the
attribute-writing calls, so they return the state unchanged. -/
def ntfs_set_ea (st : EaState) (name : String) (value : List Nat)
    (flags : Nat) : Int × EaState :=
  if 255 < name.length then (-ENAMETOOLONG, st)
  else if find_ea st.eas name then
    if flags &&& XATTR_CREATE ≠ 0 then (-EEXIST, st)
    else
      let removed := st.eas.eraseP (fun p => p.1 = name)
      if flags &&& XATTR_REPLACE ≠ 0 ∧ value = [] then (0, ⟨removed⟩)
      else (0, ⟨removed ++ [(name, value)]⟩)
  else if flags &&& XATTR_REPLACE ≠ 0 then (-ENODATA, st)
  else (0, ⟨st.eas ++ [(name, value)]⟩)

/-! Window-bitmap operations.  The bodies of `wnd_init`, `wnd_set_free`,
`wnd_set_used` and `wnd_find` live in ubitmap.c, which is not part of the
source excerpt (ntfs_fs.h lines 683-703 only declares them), so they are
modelled from the specification (spec.md §4.2). -/

/-- Number of windows covering `nbits` bits at `wbits` bits per window. -/
def nwnd (w : WndBitmap) : Nat :=
  (w.nbits + w.wbits - 1) / w.wbits

/-- Number of zero (free) bits in the window bitmap. -/
def zeroCount (w : WndBitmap) : Nat :=
  ((Finset.range w.nbits).filter (fun i => w.bits i = false)).card

/-- Number of zero (free) bits falling in window `j` (bits `i` with
`i / wbits = j`). -/
def windowZeroCount (w : WndBitmap) (j : Nat) : Nat :=
  ((Finset.range w.nbits).filter (fun i => w.bits i = false ∧ i / w.wbits = j)).card

/-- Modelled from the spec: `wnd_init` (ubitmap.c, body not in the excerpt):
"loads (or zero-initializes) the persistent window bitmap; computes each
window's free count" — embedded as the zero-initialized (all-free) state
with the per-window free counts computed from the bitmap, `total_free`
equal to the whole bit count, and an empty zone. -/
def wnd_init (nBits wBits : Nat) : WndBitmap :=
  { nbits := nBits
    wbits := wBits
    bits := fun _ => false
    total_zeroes := nBits
    free_bits := fun j => ((Finset.range nBits).filter (fun i => i / wBits = j)).card
    zone_bit := 0
    zone_end := 0 }

/-- Modelled from the spec: `wnd_set_used` (ubitmap.c, body not in the
excerpt): "mutate the window bitmap bit-by-window, update each touched
window's free count and `total_free`"; per the spec's idempotence property
("already-used bits stay used, no double-decrement of free counts") each
counter drops by the number of bits in the range that were actually
free. -/
def wnd_set_used (w : WndBitmap) (firstBit bits : Nat) : WndBitmap :=
  { w with
    bits := fun i => if firstBit ≤ i ∧ i < firstBit + bits then true else w.bits i
    total_zeroes := w.total_zeroes -
      ((Finset.range w.nbits).filter
        (fun i => (firstBit ≤ i ∧ i < firstBit + bits) ∧ w.bits i = false)).card
    free_bits := fun j => w.free_bits j -
      ((Finset.range w.nbits).filter
        (fun i => (firstBit ≤ i ∧ i < firstBit + bits) ∧ w.bits i = false ∧
          i / w.wbits = j)).card }

/-- Modelled from the spec: `wnd_set_free` (ubitmap.c, body not in the
excerpt): the mirror of `wnd_set_used` — clears the bits of the range and
raises each touched window's free count and `total_free` by the number of
bits that were actually used. -/
def wnd_set_free (w : WndBitmap) (firstBit bits : Nat) : WndBitmap :=
  { w with
    bits := fun i => if firstBit ≤ i ∧ i < firstBit + bits then false else w.bits i
    total_zeroes := w.total_zeroes +
      ((Finset.range w.nbits).filter
        (fun i => (firstBit ≤ i ∧ i < firstBit + bits) ∧ w.bits i = true)).card
    free_bits := fun j => w.free_bits j +
      ((Finset.range w.nbits).filter
        (fun i => (firstBit ≤ i ∧ i < firstBit + bits) ∧ w.bits i = true ∧
          i / w.wbits = j)).card }

/-- One call of the bitmap mutation interface. -/
inductive WndOp where
  | set_free (firstBit bits : Nat)
  | set_used (firstBit bits : Nat)

def applyOp (w : WndBitmap) : WndOp → WndBitmap
  | .set_free f b => wnd_set_free w f b
  | .set_used f b => wnd_set_used w f b

def applyOps (w : WndBitmap) (ops : List WndOp) : WndBitmap :=
  ops.foldl applyOp w

/-- The counter invariant of `wnd_bitmap`: `total_zeroes` matches the
bitmap and every `free_bits` entry matches its window. -/
def WndCountsOk (w : WndBitmap) : Prop :=
  w.total_zeroes = zeroCount w ∧ ∀ j, w.free_bits j = windowZeroCount w j

/-- The `n` bits starting at `s` are all free (zero). -/
def runFree (w : WndBitmap) (s n : Nat) : Bool :=
  (List.range n).all (fun k => !w.bits (s + k))

/-- Lowest start `s` with `lo ≤ s` and `s + n ≤ hi` whose `n` bits are all
free, if any. -/
def findInSeg (w : WndBitmap) (lo hi n : Nat) : Option Nat :=
  if lo + n ≤ hi then
    (List.range' lo (hi - n - lo + 1)).find? (fun s => runFree w s n)
  else none

/-- Modelled from the spec: `wnd_find` (ubitmap.c, body not in the
excerpt).  The spec fixes only the hard contract — an ordinary search
"must never return units inside `[zone_start, zone_end)`"; the scan order
(hint first, then wrap, best-fit heuristics) is explicitly policy.  The
model scans the zone-free segments in hint order: at or after the hint and
past the zone end, then from the zone end, then the low segment below
`zone_bit`; on success it returns the start and the (fully satisfied)
allocation size, mirroring `wnd_find(wnd, to_alloc, hint, flags,
&allocated)`. -/
def wnd_find (w : WndBitmap) (to_alloc hint : Nat) : Option (Nat × Nat) :=
  if to_alloc = 0 then none
  else
    match findInSeg w (max hint w.zone_end) w.nbits to_alloc with
    | some s => some (s, to_alloc)
    | none =>
      match findInSeg w w.zone_end w.nbits to_alloc with
      | some s => some (s, to_alloc)
      | none =>
        match findInSeg w 0 w.zone_bit to_alloc with
        | some s => some (s, to_alloc)
        | none => none

/-! Run-list model.  The bodies of `run_add_entry`, `run_pack` and
`run_unpack` live in run.c, which is not part of the source excerpt
(ntfs_fs.h lines 653-675 only declares them), so they are modelled from the
specification (spec.md §3, §4.1, §6). -/

/-- One run-list entry: `{logical_start, physical_start, length}` with
`length > 0` (spec.md §3).  A `runs_tree` is embedded as a list of these,
ordered by `vcn`; holes are the absence of an entry. -/
structure Run where
  vcn : Nat
  lcn : Nat
  len : Nat
deriving DecidableEq

/-- Decode failures of `run_unpack` (spec.md §4.1/§7):
`Corrupt` when the encoded total does not reconcile with the expected
`[svcn, evcn]` range (or a record carries an empty length field), and
`Truncated` when the buffer ends in the middle of a field. -/
inductive DecodeError where
  | Corrupt
  | Truncated
deriving DecidableEq

instance {e a : Type} [DecidableEq e] [DecidableEq a] :
    DecidableEq (Except e a) := fun x y =>
  match x, y with
  | .ok u, .ok v => decidable_of_iff (u = v) (by simp)
  | .ok _, .error _ => isFalse (by simp)
  | .error _, .ok _ => isFalse (by simp)
  | .error u, .error v => decidable_of_iff (u = v) (by simp)

/-- Insert a new entry in front of a (sorted) suffix, merging with the
right neighbor when contiguous both logically and physically. -/
def insertFront (rest : List Run) (vcn lcn len : Nat) : List Run :=
  match rest with
  | [] => [⟨vcn, lcn, len⟩]
  | f :: r =>
    if vcn + len = f.vcn ∧ lcn + len = f.lcn then ⟨vcn, lcn, len + f.len⟩ :: r
    else ⟨vcn, lcn, len⟩ :: f :: r

/-- Modelled from the spec: `run_add_entry` (run.c, body not in the
excerpt): inserts `{vcn, lcn, len}` into the ordered list, "merging with
left/right neighbors per the contiguity rule" of spec.md §3 — a neighbor is
absorbed exactly when it is adjacent both logically and physically;
overlap with an existing entry is a caller contract violation (spec.md
§4.1) and is not modelled.  Backing-store allocation failure (the only
failure of the C function) has no counterpart in the embedding. -/
def run_add_entry (run : List Run) (vcn lcn len : Nat) : List Run :=
  match run with
  | [] => [⟨vcn, lcn, len⟩]
  | e :: rest =>
    if e.vcn + e.len < vcn then
      e :: run_add_entry rest vcn lcn len
    else if e.vcn + e.len = vcn then
      if e.lcn + e.len = lcn then
        match rest with
        | f :: rest2 =>
          if vcn + len = f.vcn ∧ lcn + len = f.lcn then
            ⟨e.vcn, e.lcn, e.len + len + f.len⟩ :: rest2
          else
            ⟨e.vcn, e.lcn, e.len + len⟩ :: rest
        | [] => [⟨e.vcn, e.lcn, e.len + len⟩]
      else
        e :: insertFront rest vcn lcn len
    else
      insertFront (e :: rest) vcn lcn len

/-- The merge rule of `run_add_entry` specialized to appending entries in
increasing `vcn` order (the shape of every insertion done by
`run_unpack`), acting on a reversed accumulator. -/
def pushRun (acc : List Run) (e : Run) : List Run :=
  match acc with
  | p :: r =>
    if p.vcn + p.len = e.vcn ∧ p.lcn + p.len = e.lcn then
      ⟨p.vcn, p.lcn, p.len + e.len⟩ :: r
    else e :: acc
  | [] => [e]

/-- Little-endian bytes of `v`, `w` bytes wide (spec.md §6: "lengths and
deltas are stored little-endian"). -/
def encU : Nat → Nat → List Nat
  | 0, _ => []
  | w + 1, v => v % 256 :: encU w (v / 256)

/-- Little-endian decoding of a byte list (each byte taken mod 256). -/
def decU (bytes : List Nat) : Nat :=
  bytes.foldr (fun b acc => b % 256 + 256 * acc) 0

/-- Sign-extending decode of a `w`-byte little-endian field
(spec.md §6: "sign-extended on decode"). -/
def decS (w : Nat) (bytes : List Nat) : Int :=
  let u := decU bytes
  if u < 2 ^ (8 * w - 1) then (u : Int) else (u : Int) - 2 ^ (8 * w)

/-- Two's-complement bytes of the signed delta `d`, `w` bytes wide. -/
def encS (w : Nat) (d : Int) : List Nat :=
  encU w (d % ((2 : Int) ^ (8 * w))).toNat

/-- Minimal byte width representing an unsigned length
(spec.md §6: "the encoder must choose the minimal width"). -/
def lenWidth (v : Nat) : Nat :=
  if v < 2 ^ 8 then 1 else if v < 2 ^ 16 then 2 else if v < 2 ^ 24 then 3
  else if v < 2 ^ 32 then 4 else if v < 2 ^ 40 then 5 else if v < 2 ^ 48 then 6
  else if v < 2 ^ 56 then 7 else 8

/-- Minimal byte width representing a signed physical-offset delta. -/
def deltaWidth (d : Int) : Nat :=
  if -(2 ^ 7) ≤ d ∧ d < 2 ^ 7 then 1 else if -(2 ^ 15) ≤ d ∧ d < 2 ^ 15 then 2
  else if -(2 ^ 23) ≤ d ∧ d < 2 ^ 23 then 3
  else if -(2 ^ 31) ≤ d ∧ d < 2 ^ 31 then 4
  else if -(2 ^ 39) ≤ d ∧ d < 2 ^ 39 then 5
  else if -(2 ^ 47) ≤ d ∧ d < 2 ^ 47 then 6
  else if -(2 ^ 55) ≤ d ∧ d < 2 ^ 55 then 7 else 8

/-- On-disk record for a hole of `g` logical units: the high nibble of the
header is 0 (no physical-offset field), matching §3's "hole = absence of an
entry" at the encoding level. -/
def encHole (g : Nat) : List Nat :=
  lenWidth g :: encU (lenWidth g) g

/-- On-disk record for a mapped entry: header byte = 16 * offset-width +
length-width, then the length field, then the signed delta of the physical
start against the previous entry's physical start (absolute for the first
entry, `prev` starting at 0), per spec.md §6. -/
def encEntry (prev : Nat) (e : Run) : List Nat :=
  (16 * deltaWidth ((e.lcn : Int) - (prev : Int)) + lenWidth e.len) ::
    (encU (lenWidth e.len) e.len ++
      encS (deltaWidth ((e.lcn : Int) - (prev : Int))) ((e.lcn : Int) - (prev : Int)))

/-- Record sequence for a run list starting at position `cur` with previous
physical start `prev`: a hole record for each gap, an entry record for each
entry, and the terminating zero header byte. -/
def packEntries : Nat → Nat → List Run → List Nat
  | _, _, [] => [0]
  | cur, prev, e :: rest =>
    (if cur < e.vcn then encHole (e.vcn - cur) else []) ++
      encEntry prev e ++ packEntries (e.vcn + e.len) e.lcn rest

/-- The portion of a run list that intersects `[svcn, stop)`, with the
boundary entries trimmed. -/
def clipRuns (svcn stop : Nat) (runs : List Run) : List Run :=
  runs.filterMap (fun e =>
    if max e.vcn svcn < min (e.vcn + e.len) stop then
      some ⟨max e.vcn svcn, e.lcn + (max e.vcn svcn - e.vcn),
        min (e.vcn + e.len) stop - max e.vcn svcn⟩
    else none)

/-- Modelled from the spec: `run_pack` (run.c, body not in the excerpt):
"serializes entries starting at logical `svcn` for `length` units into a
caller buffer using the on-disk variable-length run encoding (§6)".  The
buffer-too-small splitting behavior is not modelled (the buffer is taken
large enough), so the result is the full byte sequence. -/
def run_pack (runs : List Run) (svcn len : Nat) : List Nat :=
  packEntries svcn 0 (clipRuns svcn (svcn + len) runs)

/-- One record-at-a-time decoding loop of the on-disk run buffer: at each
step read the header byte (a zero header terminates, yielding the final
logical position and the accumulated entries), take the low nibble as the
length-field width (an empty length field is corrupt) and the high nibble
as the delta-field width (0 = hole), fail with `Truncated` when the buffer
ends in the middle of a field, accumulate the physical start as a `u64`
(delta added modulo `2 ^ 64`), and push mapped entries through the
`run_add_entry` merge rule.  `fuel` only bounds the recursion and is
immaterial once larger than the buffer length. -/
def unpackGo : Nat → List Nat → Nat → Nat → List Run →
    Except DecodeError (Nat × List Run)
  | _, [], _, _, _ => .error .Truncated
  | 0, _ :: _, _, _, _ => .error .Truncated
  | fuel + 1, h :: t, cur, prev, acc =>
    if h % 256 = 0 then .ok (cur, acc)
    else if h % 16 = 0 then .error .Corrupt
    else if t.length < h % 16 + h % 256 / 16 then .error .Truncated
    else
      if h % 256 / 16 = 0 then
        unpackGo fuel (t.drop (h % 16)) (cur + decU (t.take (h % 16))) prev acc
      else
        unpackGo fuel ((t.drop (h % 16)).drop (h % 256 / 16))
          (cur + decU (t.take (h % 16)))
          (((prev : Int) + decS (h % 256 / 16) ((t.drop (h % 16)).take (h % 256 / 16)))
              % ((2 : Int) ^ 64)).toNat
          (pushRun acc
            ⟨cur,
              (((prev : Int) +
                  decS (h % 256 / 16) ((t.drop (h % 16)).take (h % 256 / 16)))
                % ((2 : Int) ^ 64)).toNat,
              decU (t.take (h % 16))⟩)

/-- Modelled from the spec: `run_unpack` (run.c, body not in the excerpt):
"decodes an on-disk run buffer into RunEntries covering `[svcn, evcn]`
inclusive; fails with `DecodeError::Corrupt` if the encoded total does not
reconcile with `evcn - svcn + 1`, or with `DecodeError::Truncated` if the
buffer ends mid-field" (spec.md §4.1); errors are returned to the caller,
never replaced by an empty run list.  The strict-validation bitmap
cross-check (`run_unpack_ex`) is not modelled. -/
def run_unpack (svcn evcn : Nat) (buf : List Nat) :
    Except DecodeError (List Run) :=
  match unpackGo (buf.length + 1) buf svcn 0 [] with
  | .ok (fin, acc) => if fin = evcn + 1 then .ok acc.reverse else .error .Corrupt
  | .error e => .error e

/-- Logical position one past the run list (`cur` when the list is empty):
the decoding resume point after the packed records. -/
def endOfRuns (l : List Run) (cur : Nat) : Nat :=
  match l.getLast? with
  | some e => e.vcn + e.len
  | none => cur

/-- Total logical span of a run list: one past the last entry's range. -/
def runsSpan (R : List Run) : Nat :=
  endOfRuns R 0

/-- Ordering/canonicity between neighboring entries (spec.md §3): strictly
increasing, non-overlapping logical ranges, and logically adjacent entries
are not physically contiguous (else they would have been merged). -/
def RunAdj (a b : Run) : Prop :=
  a.vcn + a.len ≤ b.vcn ∧ (a.vcn + a.len = b.vcn → a.lcn + a.len ≠ b.lcn)

/-- A valid (canonical) run list: neighbor-ordered per `RunAdj`, every
length positive and below `2 ^ 64`, every physical start below `2 ^ 63`
(so deltas are representable in at most 8 signed bytes), every logical
start below `2 ^ 64`. -/
def RunsWF (R : List Run) : Prop :=
  List.Chain' RunAdj R ∧
    ∀ e ∈ R, 0 < e.len ∧ e.len < 2 ^ 64 ∧ e.lcn < 2 ^ 63 ∧ e.vcn < 2 ^ 64

/-- A buffer that ends in the middle of a record: either no header byte at
all, or a well-formed non-terminator header whose fields overrun the end of
the buffer, possibly after complete records. -/
inductive EndsMidField : List Nat → Prop where
  | nil : EndsMidField []
  | short (h : Nat) (t : List Nat) : h % 256 ≠ 0 → h % 16 ≠ 0 →
      t.length < h % 16 + h % 256 / 16 → EndsMidField (h :: t)
  | step (h : Nat) (t : List Nat) : h % 256 ≠ 0 → h % 16 ≠ 0 →
      h % 16 + h % 256 / 16 ≤ t.length →
      EndsMidField (t.drop (h % 16 + h % 256 / 16)) → EndsMidField (h :: t)

/-! Theorems -/

/-- Claim C8: over exact natural-number arithmetic, `IS_IN_RANGE s c l w`
is `true` exactly when the half-open intervals `[s, s+c)` and `[l, l+w)`
have non-empty intersection (in particular it is `false` whenever `c = 0`
or `w = 0`, the intervals then being empty). -/
theorem IS_IN_RANGE_iff_intersects (s c l w : Nat) :
    IS_IN_RANGE s c l w = true ↔
      ((Finset.Ico s (s + c)) ∩ (Finset.Ico l (l + w))).Nonempty := by
  rw [Finset.Ico_inter_Ico, Finset.nonempty_Ico]
  simp only [IS_IN_RANGE, Bool.and_eq_true, Bool.or_eq_true, decide_eq_true_eq,
    lt_min_iff, max_lt_iff]
  omega

/-- Claim C6 (code-bug evidence): at the bit count `2 ^ 35` the stored
bitmap needs `ceil(2 ^ 35 / 8) = 2 ^ 32` bytes before alignment, yet
`bitmap_size` returns `0`, because the `~7u` mask in `QuadAlign` is a 32-bit
`unsigned int` and discards the high half of the `size_t` value. -/
theorem bitmap_size_high_bits_lost :
    bitmap_size (2 ^ 35) = 0 ∧ (2 ^ 35 + 7) / 8 = 2 ^ 32 := by
  constructor
  · decide
  · decide

/-- Claim C7: for a `wnd_bitmap` whose zone `[zone_bit, zone_end)` is a
well-formed half-open range of `size_t` values (`zone_bit ≤ zone_end`,
`zone_end < 2 ^ 64`), `wnd_zone_len` returns `zone_end - zone_bit` and
`wnd_zone_bit` returns `zone_bit`. -/
theorem wnd_zone_len_bit_spec (w : WndBitmap)
    (h1 : w.zone_bit ≤ w.zone_end) (h2 : w.zone_end < 2 ^ 64) :
    wnd_zone_len w = w.zone_end - w.zone_bit ∧ wnd_zone_bit w = w.zone_bit := by
  have hp : (2 : Nat) ^ 64 = 18446744073709551616 := by norm_num
  unfold wnd_zone_len wnd_zone_bit
  omega

/-- Witness for `wnd_zone_len_bit_spec` at a concrete bitmap with zone
`[100, 200)`. -/
theorem wnd_zone_len_bit_spec_witness :
    wnd_zone_len ⟨1024, 64, fun _ => false, 1024, fun _ => 0, 100, 200⟩ = 100 ∧
      wnd_zone_bit ⟨1024, 64, fun _ => false, 1024, fun _ => 0, 100, 200⟩ = 100 := by
  have h := wnd_zone_len_bit_spec ⟨1024, 64, fun _ => false, 1024, fun _ => 0, 100, 200⟩
    (by norm_num) (by norm_num)
  exact h

/-- Claim C10: for a `timespec64` with `0 ≤ tv_nsec < 10 ^ 9` and `tv_sec`
non-negative and inside the representable range (here bounded by
`9 * 10 ^ 11` seconds, which keeps the 100ns counter inside the positive
`s64` range), the round trip `nt2kernel (kernel2nt ts)` returns `tv_sec`
exactly and `tv_nsec` truncated down to the nearest multiple of 100; in
particular the round trip is the identity when `tv_nsec` is a multiple of
100 (the NTFS granularity). -/
theorem nt2kernel_kernel2nt_round_trip (ts : Timespec64)
    (h0 : 0 ≤ ts.tv_sec) (h1 : ts.tv_sec ≤ 900000000000)
    (h2 : 0 ≤ ts.tv_nsec) (h3 : ts.tv_nsec < 10 ^ 9) :
    nt2kernel (kernel2nt ts) = ⟨ts.tv_sec, ts.tv_nsec / 100 * 100⟩ ∧
      (ts.tv_nsec % 100 = 0 → nt2kernel (kernel2nt ts) = ts) := by
  obtain ⟨sec, nsec⟩ := ts
  dsimp only at h0 h1 h2 h3
  norm_num at h3
  have hv0 : (0 : Int) ≤ 10000000 * (sec + 11644473600) + nsec / 100 := by omega
  have hv1 : 10000000 * (sec + 11644473600) + nsec / 100 <
      ((18446744073709551616 : Int)) := by omega
  simp only [nt2kernel, kernel2nt, Timespec64.mk.injEq,
    show (2 : Int) ^ 64 = 18446744073709551616 from by norm_num,
    show (2 : Nat) ^ 64 = 18446744073709551616 from by norm_num,
    show (2 : Nat) ^ 63 = 9223372036854775808 from by norm_num,
    Int.emod_eq_of_lt hv0 hv1]
  generalize hN : (10000000 * (sec + 11644473600) + nsec / 100).toNat = n
  have hNv : (n : Int) = 10000000 * (sec + 11644473600) + nsec / 100 := by
    rw [← hN]; exact Int.toNat_of_nonneg hv0
  have hn1 : n < 18446744073709551616 := by omega
  have hn2 : 116444736000000000 ≤ n := by omega
  have ht : (n % 18446744073709551616 + 18446744073709551616 - 116444736000000000) %
      18446744073709551616 = n - 116444736000000000 := by omega
  simp only [ht]
  refine ⟨⟨?_, ?_⟩, fun h => ⟨?_, ?_⟩⟩
  · split
    · omega
    · omega
  · omega
  · split
    · omega
    · omega
  · omega

/-- Witness for `nt2kernel_kernel2nt_round_trip` at `tv_sec = 5`,
`tv_nsec = 250`: the nanoseconds come back truncated to 200. -/
theorem nt2kernel_kernel2nt_round_trip_witness :
    nt2kernel (kernel2nt ⟨5, 250⟩) = ⟨5, 200⟩ := by
  have h := nt2kernel_kernel2nt_round_trip ⟨5, 250⟩
    (by norm_num) (by norm_num) (by norm_num) (by norm_num)
  exact h.1

/-- Claim C9: if `XATTR_CREATE` is set and an EA with the given name exists,
`ntfs_set_ea` returns `-EEXIST`; if `XATTR_REPLACE` is set and no EA with
that name exists, it returns `-ENODATA`; in both cases the stored EA state
is returned unchanged. -/
theorem ntfs_set_ea_create_replace_errors (st : EaState) (name : String)
    (value : List Nat) (flags : Nat) (hname : name.length ≤ 255) :
    (flags &&& XATTR_CREATE ≠ 0 → find_ea st.eas name = true →
      ntfs_set_ea st name value flags = (-EEXIST, st)) ∧
    (flags &&& XATTR_REPLACE ≠ 0 → find_ea st.eas name = false →
      ntfs_set_ea st name value flags = (-ENODATA, st)) := by
  constructor
  · intro hc hf
    unfold ntfs_set_ea
    rw [if_neg (by omega), hf, if_pos rfl, if_pos hc]
  · intro hr hf
    unfold ntfs_set_ea
    rw [if_neg (by omega), hf]
    simp only [Bool.false_eq_true, if_false, if_pos hr]

/-- Witness for `ntfs_set_ea_create_replace_errors` on the one-record state
`{"user.a" ↦ [1]}`: creating `"user.a"` again fails with `-EEXIST` leaving
the state unchanged, and replacing the absent `"user.b"` fails with
`-ENODATA` leaving the state unchanged. -/
theorem ntfs_set_ea_create_replace_errors_witness :
    ntfs_set_ea ⟨[("user.a", [1])]⟩ "user.a" [2] XATTR_CREATE =
      (-EEXIST, ⟨[("user.a", [1])]⟩) ∧
    ntfs_set_ea ⟨[("user.a", [1])]⟩ "user.b" [2] XATTR_REPLACE =
      (-ENODATA, ⟨[("user.a", [1])]⟩) := by
  constructor
  · exact (ntfs_set_ea_create_replace_errors ⟨[("user.a", [1])]⟩ "user.a" [2]
      XATTR_CREATE (by decide)).1 (by decide) (by decide)
  · exact (ntfs_set_ea_create_replace_errors ⟨[("user.a", [1])]⟩ "user.b" [2]
      XATTR_REPLACE (by decide)).2 (by decide) (by decide)

/-- Bits forced to one by a `set_used` range: the surviving zero bits are
the old zero bits minus the range, so the count drops by the zero bits
inside the range (for any extra window restriction `P`). -/
theorem card_used_sdiff (n f c : Nat) (bits : Nat → Bool) (P : Nat → Prop)
    [DecidablePred P] :
    ((Finset.range n).filter
      (fun i => (if f ≤ i ∧ i < f + c then true else bits i) = false ∧ P i)).card =
    ((Finset.range n).filter (fun i => bits i = false ∧ P i)).card -
    ((Finset.range n).filter
      (fun i => (f ≤ i ∧ i < f + c) ∧ bits i = false ∧ P i)).card := by
  have hsub : (Finset.range n).filter
      (fun i => (f ≤ i ∧ i < f + c) ∧ bits i = false ∧ P i) ⊆
      (Finset.range n).filter (fun i => bits i = false ∧ P i) := by
    intro i hi
    simp only [Finset.mem_filter] at hi ⊢
    tauto
  have key : (Finset.range n).filter
      (fun i => (if f ≤ i ∧ i < f + c then true else bits i) = false ∧ P i) =
      (Finset.range n).filter (fun i => bits i = false ∧ P i) \
      (Finset.range n).filter
        (fun i => (f ≤ i ∧ i < f + c) ∧ bits i = false ∧ P i) := by
    ext i
    simp only [Finset.mem_filter, Finset.mem_sdiff, Finset.mem_range]
    by_cases h : f ≤ i ∧ i < f + c
    · simp only [if_pos h]
      tauto
    · simp only [if_neg h]
      tauto
  rw [key, Finset.card_sdiff hsub]

/-- Bits forced to zero by a `set_free` range: the new zero bits are the old
zero bits together with the previously-used bits of the range, a disjoint
union (for any extra window restriction `P`). -/
theorem card_free_union (n f c : Nat) (bits : Nat → Bool) (P : Nat → Prop)
    [DecidablePred P] :
    ((Finset.range n).filter
      (fun i => (if f ≤ i ∧ i < f + c then false else bits i) = false ∧ P i)).card =
    ((Finset.range n).filter (fun i => bits i = false ∧ P i)).card +
    ((Finset.range n).filter
      (fun i => (f ≤ i ∧ i < f + c) ∧ bits i = true ∧ P i)).card := by
  have hdisj : Disjoint
      ((Finset.range n).filter (fun i => bits i = false ∧ P i))
      ((Finset.range n).filter
        (fun i => (f ≤ i ∧ i < f + c) ∧ bits i = true ∧ P i)) := by
    rw [Finset.disjoint_left]
    intro i hi hi'
    simp only [Finset.mem_filter] at hi hi'
    rcases hi with ⟨-, hz, -⟩
    rcases hi' with ⟨-, -, ho, -⟩
    rw [hz] at ho
    cases ho
  have key : (Finset.range n).filter
      (fun i => (if f ≤ i ∧ i < f + c then false else bits i) = false ∧ P i) =
      (Finset.range n).filter (fun i => bits i = false ∧ P i) ∪
      (Finset.range n).filter
        (fun i => (f ≤ i ∧ i < f + c) ∧ bits i = true ∧ P i) := by
    ext i
    simp only [Finset.mem_filter, Finset.mem_union, Finset.mem_range]
    by_cases h : f ≤ i ∧ i < f + c
    · simp only [if_pos h]
      constructor
      · rintro ⟨hn, -, hP⟩
        rcases hb : bits i with _ | _
        · exact Or.inl ⟨hn, rfl, hP⟩
        · exact Or.inr ⟨hn, h, rfl, hP⟩
      · tauto
    · simp only [if_neg h]
      tauto
  rw [key, Finset.card_union_of_disjoint hdisj]

theorem wndCountsOk_init (n wb : Nat) : WndCountsOk (wnd_init n wb) := by
  constructor
  · simp [wnd_init, zeroCount]
  · intro j
    simp [wnd_init, windowZeroCount]

theorem wndCountsOk_set_used (w : WndBitmap) (f c : Nat) (h : WndCountsOk w) :
    WndCountsOk (wnd_set_used w f c) := by
  obtain ⟨h1, h2⟩ := h
  constructor
  · show w.total_zeroes - _ = _
    rw [h1]
    unfold zeroCount wnd_set_used
    dsimp only
    have := card_used_sdiff w.nbits f c w.bits (fun _ => True)
    simp only [and_true] at this
    exact this.symm
  · intro j
    show w.free_bits j - _ = _
    rw [h2 j]
    unfold windowZeroCount wnd_set_used
    dsimp only
    exact (card_used_sdiff w.nbits f c w.bits (fun i => i / w.wbits = j)).symm

theorem wndCountsOk_set_free (w : WndBitmap) (f c : Nat) (h : WndCountsOk w) :
    WndCountsOk (wnd_set_free w f c) := by
  obtain ⟨h1, h2⟩ := h
  constructor
  · show w.total_zeroes + _ = _
    rw [h1]
    unfold zeroCount wnd_set_free
    dsimp only
    have := card_free_union w.nbits f c w.bits (fun _ => True)
    simp only [and_true] at this
    exact this.symm
  · intro j
    show w.free_bits j + _ = _
    rw [h2 j]
    unfold windowZeroCount wnd_set_free
    dsimp only
    exact (card_free_union w.nbits f c w.bits (fun i => i / w.wbits = j)).symm

theorem wndCountsOk_applyOps (ops : List WndOp) (w : WndBitmap)
    (h : WndCountsOk w) : WndCountsOk (applyOps w ops) := by
  induction ops generalizing w with
  | nil => exact h
  | cons op rest ih =>
    show WndCountsOk (applyOps (applyOp w op) rest)
    refine ih _ ?_
    cases op with
    | set_free f b => exact wndCountsOk_set_free w f b h
    | set_used f b => exact wndCountsOk_set_used w f b h

theorem applyOps_wbits (ops : List WndOp) (w : WndBitmap) :
    (applyOps w ops).wbits = w.wbits := by
  induction ops generalizing w with
  | nil => rfl
  | cons op rest ih =>
    show (applyOps (applyOp w op) rest).wbits = _
    rw [ih]
    cases op <;> rfl

/-- The zero bits of the bitmap are partitioned by the windows. -/
theorem zeroCount_eq_sum_windows (w : WndBitmap) (hwb : 0 < w.wbits) :
    zeroCount w = ∑ j in Finset.range (nwnd w), windowZeroCount w j := by
  unfold zeroCount windowZeroCount nwnd
  rw [Finset.card_eq_sum_card_fiberwise
    (f := fun i => i / w.wbits) (t := Finset.range ((w.nbits + w.wbits - 1) / w.wbits)) ?_]
  · simp only [Finset.filter_filter]
  · intro x hx
    simp only [Finset.mem_filter, Finset.mem_range] at hx ⊢
    have h1 : x / w.wbits + 1 = (x + w.wbits) / w.wbits :=
      (Nat.add_div_right x hwb).symm
    have h2 : x + w.wbits ≤ w.nbits + w.wbits - 1 := by omega
    calc x / w.wbits < x / w.wbits + 1 := Nat.lt_succ_self _
      _ = (x + w.wbits) / w.wbits := h1
      _ ≤ (w.nbits + w.wbits - 1) / w.wbits := Nat.div_le_div_right h2

/-- Claim C1: starting from an initialized window bitmap, after every
sequence of `wnd_set_free`/`wnd_set_used` calls the maintained counter
`total_zeroes` (returned by `wnd_zeroes`) equals the number of zero bits in
the window bitmap, and also equals the sum of the per-window `free_bits`
counts. -/
theorem wnd_zeroes_invariant (nBits wBits : Nat) (ops : List WndOp)
    (hwb : 0 < wBits) :
    wnd_zeroes (applyOps (wnd_init nBits wBits) ops) =
      zeroCount (applyOps (wnd_init nBits wBits) ops) ∧
    wnd_zeroes (applyOps (wnd_init nBits wBits) ops) =
      ∑ j in Finset.range (nwnd (applyOps (wnd_init nBits wBits) ops)),
        (applyOps (wnd_init nBits wBits) ops).free_bits j := by
  have hinv := wndCountsOk_applyOps ops _ (wndCountsOk_init nBits wBits)
  have hwb' : 0 < (applyOps (wnd_init nBits wBits) ops).wbits := by
    rw [applyOps_wbits]
    exact hwb
  refine ⟨hinv.1, ?_⟩
  show (applyOps (wnd_init nBits wBits) ops).total_zeroes = _
  rw [hinv.1, zeroCount_eq_sum_windows _ hwb']
  exact Finset.sum_congr rfl (fun j _ => (hinv.2 j).symm)

/-- Witness for `wnd_zeroes_invariant`: a 5-bit bitmap with 2-bit windows
after `set_used 1 3; set_free 2 2; set_used 0 1`. -/
theorem wnd_zeroes_invariant_witness :
    wnd_zeroes (applyOps (wnd_init 5 2)
        [.set_used 1 3, .set_free 2 2, .set_used 0 1]) =
      zeroCount (applyOps (wnd_init 5 2)
        [.set_used 1 3, .set_free 2 2, .set_used 0 1]) ∧
    wnd_zeroes (applyOps (wnd_init 5 2)
        [.set_used 1 3, .set_free 2 2, .set_used 0 1]) =
      ∑ j in Finset.range (nwnd (applyOps (wnd_init 5 2)
          [.set_used 1 3, .set_free 2 2, .set_used 0 1])),
        (applyOps (wnd_init 5 2)
          [.set_used 1 3, .set_free 2 2, .set_used 0 1]).free_bits j :=
  wnd_zeroes_invariant 5 2 [.set_used 1 3, .set_free 2 2, .set_used 0 1]
    (by decide)

theorem encU_length (w v : Nat) : (encU w v).length = w := by
  induction w generalizing v with
  | zero => rfl
  | succ w ih => simp [encU, ih]

theorem decU_encU (w v : Nat) : decU (encU w v) = v % 2 ^ (8 * w) := by
  induction w generalizing v with
  | zero => simp [encU, decU, Nat.mod_one]
  | succ w ih =>
    show decU (v % 256 :: encU w (v / 256)) = _
    have hstep : decU (v % 256 :: encU w (v / 256)) =
        v % 256 % 256 + 256 * decU (encU w (v / 256)) := rfl
    rw [hstep, ih]
    have h8 : 8 * (w + 1) = 8 + 8 * w := by ring
    rw [h8, pow_add]
    have : (2 : Nat) ^ 8 = 256 := by norm_num
    rw [this, Nat.mod_mul]
    omega

theorem lenWidth_pos (v : Nat) : 1 ≤ lenWidth v := by
  unfold lenWidth
  split_ifs <;> norm_num

theorem lenWidth_le (v : Nat) : lenWidth v ≤ 8 := by
  unfold lenWidth
  split_ifs <;> norm_num

theorem lt_pow_lenWidth (v : Nat) (h : v < 2 ^ 64) : v < 2 ^ (8 * lenWidth v) := by
  unfold lenWidth
  split_ifs <;> norm_num <;> omega

theorem deltaWidth_pos (d : Int) : 1 ≤ deltaWidth d := by
  unfold deltaWidth
  split_ifs <;> norm_num

theorem deltaWidth_le (d : Int) : deltaWidth d ≤ 8 := by
  unfold deltaWidth
  split_ifs <;> norm_num

theorem deltaWidth_bounds (d : Int) (h1 : -(2 ^ 63) ≤ d) (h2 : d < 2 ^ 63) :
    -(2 ^ (8 * deltaWidth d - 1)) ≤ d ∧ d < 2 ^ (8 * deltaWidth d - 1) := by
  unfold deltaWidth
  split_ifs <;> norm_num <;> omega

theorem decS_encS (w : Nat) (d : Int) (hw : 1 ≤ w)
    (h1 : -(2 ^ (8 * w - 1)) ≤ d) (h2 : d < 2 ^ (8 * w - 1)) :
    decS w (encS w d) = d := by
  have hk : 8 * w = (8 * w - 1) + 1 := by omega
  have hMk : (2 : Int) ^ (8 * w) = 2 ^ (8 * w - 1) * 2 := by
    conv_lhs => rw [hk]
    rw [pow_succ]
  have hMk' : (2 : Nat) ^ (8 * w) = 2 ^ (8 * w - 1) * 2 := by
    conv_lhs => rw [hk]
    rw [pow_succ]
  have hkpos : (0 : Int) < 2 ^ (8 * w - 1) := by positivity
  have hcast : ((2 : Nat) ^ (8 * w - 1) : Int) = (2 : Int) ^ (8 * w - 1) := by
    push_cast
    ring
  have hcast64 : ((2 : Nat) ^ (8 * w) : Int) = (2 : Int) ^ (8 * w) := by
    push_cast
    ring
  rcases le_or_lt 0 d with hd | hd
  · have hmod : d % ((2 : Int) ^ (8 * w)) = d :=
      Int.emod_eq_of_lt hd (by omega)
    unfold encS decS
    rw [hmod, decU_encU]
    have htn : (d.toNat : Int) = d := Int.toNat_of_nonneg hd
    have hlt : d.toNat < 2 ^ (8 * w) := by omega
    rw [Nat.mod_eq_of_lt hlt]
    have : d.toNat < 2 ^ (8 * w - 1) := by omega
    rw [if_pos this, htn]
  · have hge : -(2 : Int) ^ (8 * w) ≤ d := by omega
    have hmod : d % ((2 : Int) ^ (8 * w)) = d + 2 ^ (8 * w) := by
      have h0 : (d + 2 ^ (8 * w) * 1) % ((2 : Int) ^ (8 * w)) =
          d % ((2 : Int) ^ (8 * w)) :=
        Int.add_mul_emod_self_left d (2 ^ (8 * w)) 1
      have h1' : (d + 2 ^ (8 * w) * 1) % ((2 : Int) ^ (8 * w)) =
          d + 2 ^ (8 * w) * 1 :=
        Int.emod_eq_of_lt (by omega) (by omega)
      omega
    unfold encS decS
    rw [hmod, decU_encU]
    have htn : (((d + 2 ^ (8 * w)).toNat : Int)) = d + 2 ^ (8 * w) :=
      Int.toNat_of_nonneg (by omega)
    have hlt : (d + 2 ^ (8 * w)).toNat < 2 ^ (8 * w) := by omega
    rw [Nat.mod_eq_of_lt hlt]
    have hgeN : ¬((d + 2 ^ (8 * w)).toNat < 2 ^ (8 * w - 1)) := by omega
    rw [if_neg hgeN]
    omega

/-- The decoding loop is independent of the fuel once the fuel exceeds the
buffer length. -/
theorem unpackGo_fuel_irrel (f1 : Nat) : ∀ (f2 : Nat) (buf : List Nat)
    (cur prev : Nat) (acc : List Run), buf.length < f1 → buf.length < f2 →
    unpackGo f1 buf cur prev acc = unpackGo f2 buf cur prev acc := by
  induction f1 with
  | zero =>
    intro f2 buf cur prev acc h1 h2
    exact absurd h1 (by omega)
  | succ f1 ih =>
    intro f2 buf cur prev acc h1 h2
    cases buf with
    | nil =>
      cases f2 with
      | zero => exact absurd h2 (by omega)
      | succ f2 => rfl
    | cons h t =>
      cases f2 with
      | zero => exact absurd h2 (by omega)
      | succ f2 =>
        simp only [List.length_cons] at h1 h2
        simp only [unpackGo]
        split_ifs with c1 c2 c3 c4
        · rfl
        · rfl
        · rfl
        · refine ih f2 _ _ _ _ ?_ ?_ <;> simp only [List.length_drop] <;> omega
        · refine ih f2 _ _ _ _ ?_ ?_ <;> simp only [List.length_drop] <;> omega

/-- Decoding one hole record advances the logical position by the hole
length and continues with the rest of the buffer. -/
theorem unpackGo_encHole (g : Nat) (_hg : 0 < g) (hg64 : g < 2 ^ 64)
    (B : List Nat) (fuel cur prev : Nat) (acc : List Run)
    (hf : (encHole g ++ B).length < fuel) :
    unpackGo fuel (encHole g ++ B) cur prev acc =
      unpackGo (B.length + 1) B (cur + g) prev acc := by
  have hw1 : 1 ≤ lenWidth g := lenWidth_pos g
  have hw8 : lenWidth g ≤ 8 := lenWidth_le g
  have hlenU : (encU (lenWidth g) g).length = lenWidth g := encU_length _ _
  have hfl : (encHole g ++ B).length = 1 + (lenWidth g + B.length) := by
    simp only [encHole, List.cons_append, List.length_cons, List.length_append, hlenU]
    omega
  cases fuel with
  | zero => exact absurd hf (by omega)
  | succ f =>
    have h256 : lenWidth g % 256 = lenWidth g := Nat.mod_eq_of_lt (by omega)
    have h16 : lenWidth g % 16 = lenWidth g := Nat.mod_eq_of_lt (by omega)
    have hos : lenWidth g / 16 = 0 := by omega
    show unpackGo (f + 1) (lenWidth g :: (encU (lenWidth g) g ++ B)) cur prev acc = _
    simp only [unpackGo, h256, h16, hos, List.length_append, hlenU]
    rw [if_neg (by omega), if_neg (by omega), if_neg (by omega), if_pos trivial]
    rw [List.take_left' hlenU, List.drop_left' hlenU, decU_encU,
      Nat.mod_eq_of_lt (lt_pow_lenWidth g hg64)]
    refine unpackGo_fuel_irrel f (B.length + 1) B _ prev acc ?_ ?_ <;> omega

/-- Decoding one mapped-entry record advances the logical position by the
run length, reconstructs the physical start from the signed delta, pushes
the entry, and continues with the rest of the buffer. -/
theorem unpackGo_encEntry (e : Run) (prev : Nat) (B : List Nat)
    (fuel cur : Nat) (acc : List Run)
    (_hlen0 : 0 < e.len) (hlen64 : e.len < 2 ^ 64)
    (hlcn : e.lcn < 2 ^ 63) (hprev : prev < 2 ^ 63)
    (hf : (encEntry prev e ++ B).length < fuel) :
    unpackGo fuel (encEntry prev e ++ B) cur prev acc =
      unpackGo (B.length + 1) B (cur + e.len) e.lcn
        (pushRun acc ⟨cur, e.lcn, e.len⟩) := by
  have hp63n : (2 : Nat) ^ 63 = 9223372036854775808 := by norm_num
  have hp63 : (2 : Int) ^ 63 = 9223372036854775808 := by norm_num
  have hp64 : (2 : Int) ^ 64 = 18446744073709551616 := by norm_num
  have hd1 : -(2 ^ 63) ≤ (e.lcn : Int) - (prev : Int) := by
    rw [hp63]
    omega
  have hd2 : (e.lcn : Int) - (prev : Int) < 2 ^ 63 := by
    rw [hp63]
    omega
  have hls1 : 1 ≤ lenWidth e.len := lenWidth_pos _
  have hls8 : lenWidth e.len ≤ 8 := lenWidth_le _
  have hos1 : 1 ≤ deltaWidth ((e.lcn : Int) - (prev : Int)) := deltaWidth_pos _
  have hos8 : deltaWidth ((e.lcn : Int) - (prev : Int)) ≤ 8 := deltaWidth_le _
  have hwb := deltaWidth_bounds ((e.lcn : Int) - (prev : Int)) hd1 hd2
  have hlenU : (encU (lenWidth e.len) e.len).length = lenWidth e.len :=
    encU_length _ _
  have hlenS : (encS (deltaWidth ((e.lcn : Int) - (prev : Int)))
      ((e.lcn : Int) - (prev : Int))).length =
      deltaWidth ((e.lcn : Int) - (prev : Int)) := by
    unfold encS
    exact encU_length _ _
  have hfl : (encEntry prev e ++ B).length =
      1 + (lenWidth e.len + (deltaWidth ((e.lcn : Int) - (prev : Int)) + B.length)) := by
    simp only [encEntry, List.cons_append, List.length_cons, List.length_append,
      hlenU, hlenS]
    omega
  cases fuel with
  | zero => exact absurd hf (by omega)
  | succ f =>
    have hh : 16 * deltaWidth ((e.lcn : Int) - (prev : Int)) + lenWidth e.len < 256 := by
      omega
    have h256 : (16 * deltaWidth ((e.lcn : Int) - (prev : Int)) + lenWidth e.len) % 256 =
        16 * deltaWidth ((e.lcn : Int) - (prev : Int)) + lenWidth e.len :=
      Nat.mod_eq_of_lt hh
    have h16 : (16 * deltaWidth ((e.lcn : Int) - (prev : Int)) + lenWidth e.len) % 16 =
        lenWidth e.len := by
      rw [Nat.mul_add_mod]
      omega
    have hdiv : (16 * deltaWidth ((e.lcn : Int) - (prev : Int)) + lenWidth e.len) / 16 =
        deltaWidth ((e.lcn : Int) - (prev : Int)) := by
      rw [Nat.mul_add_div (by norm_num)]
      omega
    show unpackGo (f + 1)
      ((16 * deltaWidth ((e.lcn : Int) - (prev : Int)) + lenWidth e.len) ::
        ((encU (lenWidth e.len) e.len ++
          encS (deltaWidth ((e.lcn : Int) - (prev : Int)))
            ((e.lcn : Int) - (prev : Int))) ++ B)) cur prev acc = _
    rw [List.append_assoc]
    simp only [unpackGo, h256, h16, hdiv, List.length_append, hlenU, hlenS]
    rw [if_neg (by omega), if_neg (by omega), if_neg (by omega), if_neg (by omega)]
    rw [List.take_left' hlenU, List.drop_left' hlenU, decU_encU,
      Nat.mod_eq_of_lt (lt_pow_lenWidth _ hlen64),
      List.take_left' hlenS, List.drop_left' hlenS,
      decS_encS _ _ (by omega) hwb.1 hwb.2]
    have hlcnv : (((prev : Int) + ((e.lcn : Int) - (prev : Int))) %
        ((2 : Int) ^ 64)).toNat = e.lcn := by
      rw [hp64]
      omega
    rw [hlcnv]
    refine unpackGo_fuel_irrel f (B.length + 1) B _ _ _ ?_ ?_ <;> omega

/-- `pushRun` plainly appends when the accumulator head cannot be merged
with the incoming entry. -/
theorem pushRun_no_merge (acc : List Run) (e : Run)
    (h : ∀ p, acc.head? = some p → p.vcn + p.len = e.vcn →
      p.lcn + p.len ≠ e.lcn) : pushRun acc e = e :: acc := by
  cases acc with
  | nil => rfl
  | cons p r =>
    show (if p.vcn + p.len = e.vcn ∧ p.lcn + p.len = e.lcn then _ else _) = _
    rw [if_neg]
    rintro ⟨h1, h2⟩
    exact h p rfl h1 h2

/-- Decoding the packed record sequence of a well-formed run list suffix
recovers exactly its entries (reversed onto the accumulator) and ends at
the position one past its last entry. -/
theorem unpackGo_packEntries (l : List Run) : ∀ (cur prev : Nat) (acc : List Run),
    List.Chain' RunAdj l →
    (∀ e, l.head? = some e → cur ≤ e.vcn) →
    (∀ e ∈ l, 0 < e.len ∧ e.len < 2 ^ 64 ∧ e.lcn < 2 ^ 63 ∧ e.vcn < 2 ^ 64) →
    prev < 2 ^ 63 →
    (∀ p e, acc.head? = some p → l.head? = some e →
      p.vcn + p.len = e.vcn → p.lcn + p.len ≠ e.lcn) →
    unpackGo ((packEntries cur prev l).length + 1) (packEntries cur prev l)
        cur prev acc =
      .ok (endOfRuns l cur, l.reverse ++ acc) := by
  induction l with
  | nil =>
    intro cur prev acc _ _ _ _ _
    rfl
  | cons e rest ih =>
    intro cur prev acc hchain hfirst hbounds hprev hacc
    obtain ⟨hhead, hrest_chain⟩ := List.chain'_cons'.mp hchain
    have hb := hbounds e (by simp)
    have heta : (⟨e.vcn, e.lcn, e.len⟩ : Run) = e := rfl
    have hfirst' : ∀ f, rest.head? = some f → e.vcn + e.len ≤ f.vcn := by
      intro f hf
      exact (hhead f hf).1
    have hacc' : ∀ p f, (e :: acc).head? = some p → rest.head? = some f →
        p.vcn + p.len = f.vcn → p.lcn + p.len ≠ f.lcn := by
      intro p f hp hf
      rw [show p = e from by simpa using hp.symm]
      exact (hhead f hf).2
    have hbounds' : ∀ f ∈ rest, 0 < f.len ∧ f.len < 2 ^ 64 ∧ f.lcn < 2 ^ 63 ∧
        f.vcn < 2 ^ 64 := fun f hf => hbounds f (List.mem_cons_of_mem e hf)
    have hpush : pushRun acc ⟨e.vcn, e.lcn, e.len⟩ = ⟨e.vcn, e.lcn, e.len⟩ :: acc := by
      refine pushRun_no_merge acc _ ?_
      intro p hp h1 h2
      exact hacc p e hp rfl h1 h2
    have hrev : rest.reverse ++ (e :: acc) = (e :: rest).reverse ++ acc := by
      rw [List.reverse_cons, List.append_assoc]
      rfl
    have hend : ∀ c, endOfRuns rest (e.vcn + e.len) = endOfRuns (e :: rest) c := by
      intro c
      cases rest with
      | nil => rfl
      | cons g r =>
        unfold endOfRuns
        rw [List.getLast?_cons_cons]
        cases hgl : (g :: r).getLast? with
        | none => exact absurd hgl (by simp)
        | some x => rfl
    show unpackGo
      (((if cur < e.vcn then encHole (e.vcn - cur) else []) ++
        encEntry prev e ++ packEntries (e.vcn + e.len) e.lcn rest).length + 1)
      ((if cur < e.vcn then encHole (e.vcn - cur) else []) ++
        encEntry prev e ++ packEntries (e.vcn + e.len) e.lcn rest)
      cur prev acc = _
    by_cases hcur : cur < e.vcn
    · rw [if_pos hcur, List.append_assoc]
      rw [unpackGo_encHole (e.vcn - cur) (by omega) (by omega) _ _ _ _ _ (by omega)]
      have hc : cur + (e.vcn - cur) = e.vcn := by omega
      rw [hc]
      rw [unpackGo_encEntry e prev _ _ _ _ hb.1 hb.2.1 hb.2.2.1 hprev (by omega)]
      rw [hpush, heta]
      rw [ih (e.vcn + e.len) e.lcn (e :: acc) hrest_chain hfirst' hbounds'
        hb.2.2.1 hacc']
      rw [hrev, hend cur]
    · rw [if_neg hcur, List.nil_append]
      have hc : cur = e.vcn := by
        have := hfirst e rfl
        omega
      rw [hc]
      rw [unpackGo_encEntry e prev _ _ _ _ hb.1 hb.2.1 hb.2.2.1 hprev (by omega)]
      rw [hpush, heta]
      rw [ih (e.vcn + e.len) e.lcn (e :: acc) hrest_chain hfirst' hbounds'
        hb.2.2.1 hacc']
      rw [hrev, hend e.vcn]

/-- Every entry of a neighbor-ordered run list ends no later than the
decoding end position. -/
theorem end_le_endOfRuns (R : List Run) (hchain : List.Chain' RunAdj R)
    (cur : Nat) : ∀ e ∈ R, e.vcn + e.len ≤ endOfRuns R cur := by
  induction R generalizing cur with
  | nil =>
    intro e he
    simp at he
  | cons f rest ih =>
    intro e he
    rcases List.mem_cons.mp he with rfl | he'
    · cases rest with
      | nil => exact le_refl _
      | cons g r =>
        have h1 : e.vcn + e.len ≤ g.vcn := (List.chain'_cons.mp hchain).1.1
        have h2 := ih (List.chain'_cons.mp hchain).2 cur g (by simp)
        have he2 : endOfRuns (e :: g :: r) cur = endOfRuns (g :: r) cur := by
          unfold endOfRuns
          rw [List.getLast?_cons_cons]
        rw [he2]
        omega
    · cases rest with
      | nil => simp at he'
      | cons g r =>
        have he2 : endOfRuns (f :: g :: r) cur = endOfRuns (g :: r) cur := by
          unfold endOfRuns
          rw [List.getLast?_cons_cons]
        rw [he2]
        exact ih (List.chain'_cons.mp hchain).2 cur e he'

/-- Clipping to `[0, stop)` is the identity on lists fully inside the
range. -/
theorem clip_id (R : List Run) (stop : Nat)
    (h : ∀ e ∈ R, 0 < e.len ∧ e.vcn + e.len ≤ stop) :
    clipRuns 0 stop R = R := by
  induction R with
  | nil => rfl
  | cons e rest ih =>
    have he := h e (by simp)
    have hrest := ih (fun f hf => h f (List.mem_cons_of_mem _ hf))
    obtain ⟨v, lc, n⟩ := e
    simp only at he
    show clipRuns 0 stop (⟨v, lc, n⟩ :: rest) = _
    unfold clipRuns
    rw [List.filterMap_cons]
    have hmax : max v 0 = v := Nat.max_zero v
    have hmin : min (v + n) stop = v + n := min_eq_left he.2
    have hcond : (if max (⟨v, lc, n⟩ : Run).vcn 0 <
        min ((⟨v, lc, n⟩ : Run).vcn + (⟨v, lc, n⟩ : Run).len) stop then
        some (⟨max (⟨v, lc, n⟩ : Run).vcn 0,
          (⟨v, lc, n⟩ : Run).lcn + (max (⟨v, lc, n⟩ : Run).vcn 0 - (⟨v, lc, n⟩ : Run).vcn),
          min ((⟨v, lc, n⟩ : Run).vcn + (⟨v, lc, n⟩ : Run).len) stop -
            max (⟨v, lc, n⟩ : Run).vcn 0⟩ : Run)
      else none) = some ⟨v, lc, n⟩ := by
      dsimp only
      rw [hmax, hmin, if_pos (by omega), Option.some.injEq, Run.mk.injEq]
      omega
    rw [hcond]
    exact congrArg (fun l => Run.mk v lc n :: l) hrest

/-- Claim C3: for every valid run list `R` (neighbor-ordered, canonical,
in-range) with total logical span `L = runsSpan R`, packing with `run_pack`
from `svcn = 0` for `L` units and decoding the buffer with `run_unpack`
over `[0, L - 1]` reproduces exactly the original entries. -/
theorem run_pack_unpack_round_trip (R : List Run) (hwf : RunsWF R)
    (hne : R ≠ []) :
    run_unpack 0 (runsSpan R - 1) (run_pack R 0 (runsSpan R)) = .ok R := by
  obtain ⟨hchain, hbounds⟩ := hwf
  have hrs : runsSpan R = endOfRuns R 0 := rfl
  have hspan : 0 < runsSpan R := by
    cases R with
    | nil => exact absurd rfl hne
    | cons e rest =>
      have h1 := end_le_endOfRuns (e :: rest) hchain 0 e (by simp)
      have h2 := (hbounds e (by simp)).1
      rw [hrs]
      omega
  have hclip : clipRuns 0 (0 + runsSpan R) R = R := by
    rw [Nat.zero_add]
    exact clip_id R (runsSpan R)
      (fun e he => ⟨(hbounds e he).1, end_le_endOfRuns R hchain 0 e he⟩)
  unfold run_pack
  rw [hclip]
  have hmain := unpackGo_packEntries R 0 0 [] hchain (fun e _ => Nat.zero_le _)
    hbounds (by norm_num) (fun p e hp => by simp at hp)
  unfold run_unpack
  rw [hmain]
  show (if endOfRuns R 0 = runsSpan R - 1 + 1 then
      Except.ok (R.reverse ++ []).reverse else Except.error DecodeError.Corrupt) = _
  rw [if_pos (by omega)]
  rw [List.append_nil, List.reverse_reverse]

/-- Witness for `run_pack_unpack_round_trip` on the two-entry list
`{(0, 500, 10), (12, 520, 5)}` (a run list with a 2-unit hole), whose span
is 17. -/
theorem run_pack_unpack_round_trip_witness :
    RunsWF [⟨0, 500, 10⟩, ⟨12, 520, 5⟩] ∧
      run_unpack 0 (runsSpan [⟨0, 500, 10⟩, ⟨12, 520, 5⟩] - 1)
          (run_pack [⟨0, 500, 10⟩, ⟨12, 520, 5⟩] 0
            (runsSpan [⟨0, 500, 10⟩, ⟨12, 520, 5⟩])) =
        .ok [⟨0, 500, 10⟩, ⟨12, 520, 5⟩] := by
  have hwf : RunsWF [⟨0, 500, 10⟩, ⟨12, 520, 5⟩] := by
    refine ⟨List.chain'_cons.mpr ⟨⟨by norm_num, by norm_num⟩,
      List.chain'_singleton _⟩, ?_⟩
    intro e he
    rcases List.mem_cons.mp he with rfl | he'
    · exact ⟨by norm_num, by norm_num, by norm_num, by norm_num⟩
    rcases List.mem_cons.mp he' with rfl | he''
    · exact ⟨by norm_num, by norm_num, by norm_num, by norm_num⟩
    simp at he''
  exact ⟨hwf, run_pack_unpack_round_trip _ hwf (by simp)⟩

/-- On a buffer that ends mid-field, the decoding loop always reports
`Truncated`. -/
theorem unpackGo_endsMidField (buf : List Nat) (hm : EndsMidField buf) :
    ∀ (fuel cur prev : Nat) (acc : List Run), buf.length < fuel →
    unpackGo fuel buf cur prev acc = .error .Truncated := by
  induction hm with
  | nil =>
    intro fuel cur prev acc hf
    cases fuel with
    | zero => rfl
    | succ f => rfl
  | short h t h0 h16 hshort =>
    intro fuel cur prev acc hf
    cases fuel with
    | zero => exact absurd hf (by omega)
    | succ f =>
      show unpackGo (f + 1) (h :: t) cur prev acc = _
      simp only [unpackGo]
      rw [if_neg h0, if_neg h16, if_pos hshort]
  | step h t h0 h16 hge hrec ih =>
    intro fuel cur prev acc hf
    cases fuel with
    | zero => exact absurd hf (by omega)
    | succ f =>
      simp only [List.length_cons] at hf
      show unpackGo (f + 1) (h :: t) cur prev acc = _
      simp only [unpackGo]
      rw [if_neg h0, if_neg h16, if_neg (by omega)]
      by_cases hos : h % 256 / 16 = 0
      · rw [if_pos hos]
        have ih' := ih f (cur + decU (t.take (h % 16))) prev acc
          (by simp only [List.length_drop]; omega)
        rw [show h % 16 + h % 256 / 16 = h % 16 from by omega] at ih'
        exact ih'
      · rw [if_neg hos]
        rw [List.drop_drop]
        have ih' := ih f (cur + decU (t.take (h % 16)))
          (((prev : Int) +
            decS (h % 256 / 16) ((t.drop (h % 16)).take (h % 256 / 16))) %
              ((2 : Int) ^ 64)).toNat
          (pushRun acc
            ⟨cur,
              (((prev : Int) +
                decS (h % 256 / 16) ((t.drop (h % 16)).take (h % 256 / 16))) %
                  ((2 : Int) ^ 64)).toNat,
              decU (t.take (h % 16))⟩)
          (by simp only [List.length_drop]; omega)
        exact ih'

/-- Claim C4: `run_unpack` reports decode errors to its caller and never
passes a corrupt buffer off as an empty run list: (1) when the buffer's
records parse but their encoded total (the final logical position `fin`)
does not reconcile with `evcn + 1 = svcn + (evcn - svcn + 1)`, the result
is the `Corrupt` error; (2) hence a buffer that decodes successfully for
the range ending at `evcn` yields `Corrupt` for every other expected end;
(3) when the buffer ends in the middle of a field, the result is the
`Truncated` error. -/
theorem run_unpack_error_semantics :
    (∀ svcn evcn buf fin acc,
      unpackGo (buf.length + 1) buf svcn 0 [] = .ok (fin, acc) →
      fin ≠ evcn + 1 → run_unpack svcn evcn buf = .error .Corrupt) ∧
    (∀ svcn evcn evcn' buf runs, run_unpack svcn evcn buf = .ok runs →
      evcn' ≠ evcn → run_unpack svcn evcn' buf = .error .Corrupt) ∧
    (∀ svcn evcn buf, EndsMidField buf →
      run_unpack svcn evcn buf = .error .Truncated) := by
  have part1 : ∀ svcn evcn buf fin acc,
      unpackGo (buf.length + 1) buf svcn 0 [] = .ok (fin, acc) →
      fin ≠ evcn + 1 → run_unpack svcn evcn buf = .error .Corrupt := by
    intro svcn evcn buf fin acc hgo hne
    unfold run_unpack
    rw [hgo]
    show (if fin = evcn + 1 then Except.ok acc.reverse
      else Except.error DecodeError.Corrupt) = _
    rw [if_neg hne]
  refine ⟨part1, ?_, ?_⟩
  · intro svcn evcn evcn' buf runs hok hne
    cases hgo : unpackGo (buf.length + 1) buf svcn 0 [] with
    | error e =>
      unfold run_unpack at hok
      rw [hgo] at hok
      exact absurd hok (by simp)
    | ok p =>
      obtain ⟨fin, acc⟩ := p
      have hfin : fin = evcn + 1 := by
        unfold run_unpack at hok
        rw [hgo] at hok
        have hok' : (if fin = evcn + 1 then Except.ok acc.reverse
            else Except.error DecodeError.Corrupt) = Except.ok runs := hok
        by_contra hn
        rw [if_neg hn] at hok'
        exact absurd hok' (by simp)
      exact part1 svcn evcn' buf fin acc hgo (by omega)
  · intro svcn evcn buf hm
    unfold run_unpack
    rw [unpackGo_endsMidField buf hm (buf.length + 1) svcn 0 [] (by omega)]

/-- Witness for `run_unpack_error_semantics`: the one-record buffer
`[17, 5, 10, 0]` (5 units mapped at physical 10) decodes over `[0, 4]`,
yields `Corrupt` for the mismatching ranges `[0, 7]` and `[0, 5]`, and its
mid-field truncation `[17, 5]` yields `Truncated`. -/
theorem run_unpack_error_semantics_witness :
    run_unpack 0 7 [17, 5, 10, 0] = .error .Corrupt ∧
    run_unpack 0 5 [17, 5, 10, 0] = .error .Corrupt ∧
    run_unpack 0 0 [17, 5] = .error .Truncated := by
  refine ⟨?_, ?_, ?_⟩
  · exact run_unpack_error_semantics.1 0 7 [17, 5, 10, 0] 5 [⟨0, 10, 5⟩]
      (by decide) (by decide)
  · exact run_unpack_error_semantics.2.1 0 4 5 [17, 5, 10, 0] [⟨0, 10, 5⟩]
      (by decide) (by decide)
  · exact run_unpack_error_semantics.2.2 0 0 [17, 5]
      (EndsMidField.short 17 [5] (by decide) (by decide) (by decide))

/-- Claim C5: `run_add_entry` merges a new entry with its neighbor exactly
when the two are contiguous both logically and physically: appending an
entry logically adjacent to the last entry of a valid list keeps the entry
count iff the physical starts are also contiguous; and in the concrete
scenario `{(0, 500, 10), (10, 520, 5)}` — logically adjacent, physically
discontiguous — the list keeps two separate entries and `run_pack` emits
two on-disk records (plus the terminator), not one. -/
theorem run_add_entry_merge_iff (R' : List Run) (e : Run) (vcn lcn len : Nat)
    (hsort : ∀ f ∈ R', f.vcn + f.len ≤ e.vcn)
    (hlen : 0 < e.len) (hv : vcn = e.vcn + e.len) :
    (run_add_entry (R' ++ [e]) vcn lcn len =
      if lcn = e.lcn + e.len then R' ++ [⟨e.vcn, e.lcn, e.len + len⟩]
      else (R' ++ [e]) ++ [⟨vcn, lcn, len⟩]) ∧
    ((run_add_entry (R' ++ [e]) vcn lcn len).length = (R' ++ [e]).length ↔
      lcn = e.lcn + e.len) ∧
    run_add_entry (run_add_entry [] 0 500 10) 10 520 5 =
      [⟨0, 500, 10⟩, ⟨10, 520, 5⟩] ∧
    run_pack [⟨0, 500, 10⟩, ⟨10, 520, 5⟩] 0 15 =
      [33, 10, 244, 1, 17, 5, 20, 0] := by
  have main : run_add_entry (R' ++ [e]) vcn lcn len =
      if lcn = e.lcn + e.len then R' ++ [⟨e.vcn, e.lcn, e.len + len⟩]
      else (R' ++ [e]) ++ [⟨vcn, lcn, len⟩] := by
    induction R' with
    | nil =>
      simp only [List.nil_append]
      show run_add_entry [e] vcn lcn len = _
      unfold run_add_entry
      rw [if_neg (by omega), if_pos (by omega)]
      by_cases hl : lcn = e.lcn + e.len
      · rw [if_pos (by omega), if_pos hl]
      · rw [if_neg (fun hh => hl (by omega)), if_neg hl]
        rfl
    | cons f R'' ih =>
      have hf := hsort f (by simp)
      have hfx : f.vcn + f.len < vcn := by omega
      simp only [List.cons_append]
      show run_add_entry (f :: (R'' ++ [e])) vcn lcn len = _
      unfold run_add_entry
      rw [if_pos hfx]
      rw [ih (fun g hg => hsort g (List.mem_cons_of_mem _ hg))]
      by_cases hl : lcn = e.lcn + e.len
      · rw [if_pos hl, if_pos hl]
      · rw [if_neg hl, if_neg hl]
  refine ⟨main, ?_, by decide, by decide⟩
  rw [main]
  by_cases hl : lcn = e.lcn + e.len
  · rw [if_pos hl]
    simp [hl]
  · rw [if_neg hl]
    constructor
    · intro hL
      exfalso
      simp only [List.length_append, List.length_cons, List.length_nil] at hL
      omega
    · intro hL
      exact absurd hL hl

/-- Witness for `run_add_entry_merge_iff`: appending `(10, 520, 5)` after
`(0, 500, 10)` does not keep the entry count, as 520 differs from
500 + 10. -/
theorem run_add_entry_merge_iff_witness :
    (run_add_entry ([] ++ [⟨0, 500, 10⟩]) 10 520 5).length =
        ([] ++ [(⟨0, 500, 10⟩ : Run)]).length ↔ (520 : Nat) = 500 + 10 :=
  (run_add_entry_merge_iff [] ⟨0, 500, 10⟩ 10 520 5 (by simp) (by norm_num)
    (by norm_num)).2.1

theorem findInSeg_bounds (w : WndBitmap) (lo hi n s : Nat)
    (h : findInSeg w lo hi n = some s) : lo ≤ s ∧ s + n ≤ hi := by
  unfold findInSeg at h
  split at h
  · next hle =>
    have hm := List.mem_of_find?_eq_some h
    rw [List.mem_range'_1] at hm
    omega
  · exact absurd h (by simp)

/-- Claim C2: an ordinary `wnd_find` call that succeeds with start `s` and
`alloc` allocated units returns a range `[s, s + alloc)` disjoint from the
zone `[zone_bit, zone_end)`. -/
theorem wnd_find_avoids_zone (w : WndBitmap) (to_alloc hint s alloc : Nat)
    (h : wnd_find w to_alloc hint = some (s, alloc)) (i : Nat)
    (hi1 : s ≤ i) (hi2 : i < s + alloc) :
    ¬(w.zone_bit ≤ i ∧ i < w.zone_end) := by
  unfold wnd_find at h
  split at h
  · exact absurd h (by simp)
  · next hta =>
    rcases h1 : findInSeg w (max hint w.zone_end) w.nbits to_alloc with _ | s1
    · rw [h1] at h
      rcases h2 : findInSeg w w.zone_end w.nbits to_alloc with _ | s2
      · rw [h2] at h
        rcases h3 : findInSeg w 0 w.zone_bit to_alloc with _ | s3
        · rw [h3] at h
          exact absurd h (by simp)
        · rw [h3] at h
          have ⟨hs, ha⟩ : s3 = s ∧ to_alloc = alloc := by simpa using h
          have hb := findInSeg_bounds w 0 w.zone_bit to_alloc s3 h3
          omega
      · rw [h2] at h
        have ⟨hs, ha⟩ : s2 = s ∧ to_alloc = alloc := by simpa using h
        have hb := findInSeg_bounds w w.zone_end w.nbits to_alloc s2 h2
        omega
    · rw [h1] at h
      have ⟨hs, ha⟩ : s1 = s ∧ to_alloc = alloc := by simpa using h
      have hb := findInSeg_bounds w (max hint w.zone_end) w.nbits to_alloc s1 h1
      have : w.zone_end ≤ s1 := le_trans (le_max_right _ _) hb.1
      omega

/-- Witness for `wnd_find_avoids_zone`: an all-free 8-bit bitmap with zone
`[2, 4)`; `wnd_find` for 2 units at hint 0 returns `(4, 2)`, and the unit
4 it hands out is outside the zone. -/
theorem wnd_find_avoids_zone_witness :
    wnd_find ⟨8, 4, fun _ => false, 8, fun _ => 0, 2, 4⟩ 2 0 = some (4, 2) ∧
      ¬((2 : Nat) ≤ 4 ∧ (4 : Nat) < 4) := by
  refine ⟨by decide, ?_⟩
  exact wnd_find_avoids_zone ⟨8, 4, fun _ => false, 8, fun _ => 0, 2, 4⟩ 2 0 4 2
    (by decide) 4 (by decide) (by decide)

end Ntfs
